import Mathlib

/-!
Shallow embedding of `ScoredProcessingResult`
(src/src/openms/include/OpenMS/METADATA/ID/ScoredProcessingResult.h).

The C++ type stores `steps_and_scores : AppliedProcessingSteps`, a
`boost::multi_index_container` over `AppliedProcessingStep` entries with
two views: a sequenced index (order of insertion) and an ordered-unique
index keyed by `processing_step_opt`.  We embed the container as the
underlying sequence (a `List`); the ordered-unique view is the statement
that the `processing_step_opt` keys are pairwise distinct, which the C++
container guarantees structurally and which we prove is preserved by
every operation (claim C1).  `find` on the unique index is embedded as
the first (and, on valid states, only) entry with the given key.

`ProcessingStepRef` and `ScoreTypeRef` are opaque, orderable handles in
the source; we embed both as `Nat`.  `double` score values are never
used arithmetically by this code (only stored, copied and compared for
map lookup by key), so we embed them as a sum of a rational value and
the distinguished quiet-NaN sentinel returned on lookup misses.
-/

/-- Embedding of `double` as used by this code: either an ordinary finite
value or the quiet NaN sentinel (`std::numeric_limits<double>::quiet_NaN()`). -/
inductive Dbl where
  | nan : Dbl
  | fin (q : ℚ) : Dbl
  deriving DecidableEq, Repr

/-- The is-NaN predicate on embedded doubles. -/
def Dbl.isNaN : Dbl → Bool
  | .nan => true
  | .fin _ => false

/-- Embedding of `ProcessingStepRef` (opaque orderable handle). -/
abbrev ProcessingStepRef := Nat

/-- Embedding of `ScoreTypeRef` (opaque orderable handle, map key). -/
abbrev ScoreTypeRef := Nat

/-- Embedding of `std::map<ScoreTypeRef, double>`: an association list kept
strictly sorted by key (the canonical form `std::map` maintains). -/
abbrev ScoreMap := List (ScoreTypeRef × Dbl)

/-- `m.find(k)` on a `std::map`: the value at key `k`, if present. -/
def mapFind (k : ScoreTypeRef) : ScoreMap → Option Dbl
  | [] => none
  | (k', v) :: m => if k' = k then some v else mapFind k m

/-- `m[k] = v` on a `std::map`: insert at the sorted position, or overwrite
the value if the key is already present. -/
def mapInsert (k : ScoreTypeRef) (v : Dbl) : ScoreMap → ScoreMap
  | [] => [(k, v)]
  | (k', v') :: m =>
    if k < k' then (k, v) :: (k', v') :: m
    else if k = k' then (k, v) :: m
    else (k', v') :: mapInsert k v m

/-- Embedding of `AppliedProcessingStep`: an optional processing-step
reference plus a score map. -/
structure AppliedProcessingStep where
  processing_step_opt : Option ProcessingStepRef
  scores : ScoreMap
  deriving DecidableEq, Repr

/-- The sequenced view of `AppliedProcessingSteps` (the multi_index
container in order of insertion). -/
abbrev AppliedProcessingSteps := List AppliedProcessingStep

/-- The loop body of `addProcessingStep`'s `modify` lambda:
`for (pair : step.scores) old_step.scores[pair.first] = pair.second`. -/
def mergeScores (old upd : ScoreMap) : ScoreMap :=
  upd.foldl (fun acc p => mapInsert p.1 p.2 acc) old

/-- `steps_and_scores.get<1>().find(p)` embedded on the sequence: the first
entry whose `processing_step_opt` equals `p` (unique on valid states). -/
def lookupEntry (p : Option ProcessingStepRef) :
    AppliedProcessingSteps → Option AppliedProcessingStep
  | [] => none
  | e :: rest => if e.processing_step_opt = p then some e else lookupEntry p rest

/-- `ScoredProcessingResult::addProcessingStep(const AppliedProcessingStep&)`:
if no entry has the step's `processing_step_opt`, `push_back` the step;
otherwise `modify` the existing entry in place, writing every score pair of
`step` into its map. -/
def addProcessingStep : AppliedProcessingSteps → AppliedProcessingStep →
    AppliedProcessingSteps
  | [], step => [step]
  | e :: rest, step =>
    if e.processing_step_opt = step.processing_step_opt then
      { e with scores := mergeScores e.scores step.scores } :: rest
    else e :: addProcessingStep rest step

/-- `ScoredProcessingResult::addProcessingStep(ProcessingStepRef, scores)`:
the convenience overload, delegating to the `AppliedProcessingStep` form. -/
def addProcessingStepRef (l : AppliedProcessingSteps) (step_ref : ProcessingStepRef)
    (scores : ScoreMap) : AppliedProcessingSteps :=
  addProcessingStep l ⟨some step_ref, scores⟩

/-- `ScoredProcessingResult::addScore`: build a single-score
`AppliedProcessingStep` (`applied.scores[score_type] = score` on an empty
map) and delegate to `addProcessingStep`. -/
def addScore (l : AppliedProcessingSteps) (score_type : ScoreTypeRef) (score : Dbl)
    (processing_step_opt : Option ProcessingStepRef) : AppliedProcessingSteps :=
  addProcessingStep l ⟨processing_step_opt, mapInsert score_type score []⟩

/-- The `steps_and_scores` part of `ScoredProcessingResult::operator+=`:
`for (step : other.steps_and_scores) addProcessingStep(step)` in `other`'s
sequence order.  (The trailing meta-info merge touches the `MetaInfoInterface`
base only, not the ledger.) -/
def merge (l other : AppliedProcessingSteps) : AppliedProcessingSteps :=
  other.foldl addProcessingStep l

/-- `ScoredProcessingResult::getScoreAndStep` unrolled on the reversed
sequence: `boost::adaptors::reverse(steps_and_scores)` visits the last-inserted
entry first, returning the first hit for `score_ref`. -/
def getScoreAndStepRev (score_ref : ScoreTypeRef) :
    AppliedProcessingSteps → Dbl × Option ProcessingStepRef × Bool
  | [] => (Dbl.nan, none, false)
  | e :: rest =>
    match mapFind score_ref e.scores with
    | some v => (v, e.processing_step_opt, true)
    | none => getScoreAndStepRev score_ref rest

/-- `ScoredProcessingResult::getScoreAndStep(ScoreTypeRef)`: scan the entries
in reverse sequence order; return the first value found for `score_ref`
together with that entry's step reference, or `(NaN, none, false)`. -/
def getScoreAndStep (l : AppliedProcessingSteps) (score_ref : ScoreTypeRef) :
    Dbl × Option ProcessingStepRef × Bool :=
  getScoreAndStepRev score_ref l.reverse

/-- `ScoredProcessingResult::getScore(ScoreTypeRef)`: call `getScoreAndStep`
and drop the middle component. -/
def getScore (l : AppliedProcessingSteps) (score_ref : ScoreTypeRef) :
    Dbl × Bool :=
  let r := getScoreAndStep l score_ref
  (r.1, r.2.2)

/-- `ScoredProcessingResult::getScore(ScoreTypeRef, optional<ProcessingStepRef>)`:
find the entry for `processing_step_opt` via the unique index, then look up
`score_ref` in its map; `(NaN, false)` if either is absent. -/
def getScoreForStep (l : AppliedProcessingSteps) (score_ref : ScoreTypeRef)
    (processing_step_opt : Option ProcessingStepRef) : Dbl × Bool :=
  match lookupEntry processing_step_opt l with
  | some e =>
    match mapFind score_ref e.scores with
    | some v => (v, true)
    | none => (Dbl.nan, false)
  | none => (Dbl.nan, false)

/-- The `processing_step_opt` keys of the sequence, in sequence order. -/
def keysOf (l : AppliedProcessingSteps) : List (Option ProcessingStepRef) :=
  l.map (·.processing_step_opt)

/-- Validity of an embedded `std::map`: strictly sorted by key. -/
def ScoreMapWF (m : ScoreMap) : Prop :=
  m.Pairwise (fun a b => a.1 < b.1)

instance (m : ScoreMap) : Decidable (ScoreMapWF m) := by
  unfold ScoreMapWF; infer_instance

/-- Validity of an embedded container state: keys pairwise distinct (the
ordered-unique index) and every score map in `std::map` canonical form. -/
def LedgerWF (l : AppliedProcessingSteps) : Prop :=
  (keysOf l).Nodup ∧ ∀ e ∈ l, ScoreMapWF e.scores

instance (l : AppliedProcessingSteps) : Decidable (LedgerWF l) := by
  unfold LedgerWF; infer_instance

/-- Ledger states reachable from the empty container by `addProcessingStep`,
`addScore` and `operator+=` calls. -/
inductive Reachable : AppliedProcessingSteps → Prop where
  | empty : Reachable []
  | addStep (l : AppliedProcessingSteps) (step : AppliedProcessingStep) :
      Reachable l → Reachable (addProcessingStep l step)
  | score (l : AppliedProcessingSteps) (t : ScoreTypeRef) (v : Dbl)
      (p : Option ProcessingStepRef) :
      Reachable l → Reachable (addScore l t v p)
  | plusEq (l other : AppliedProcessingSteps) :
      Reachable l → Reachable (merge l other)

/-! ### Lemmas about the embedded `std::map` operations -/

theorem mapFind_eq_none_of_not_mem {k : ScoreTypeRef} {m : ScoreMap}
    (h : k ∉ m.map Prod.fst) : mapFind k m = none := by
  induction m with
  | nil => rfl
  | cons p m ih =>
    obtain ⟨a, b⟩ := p
    simp only [List.map_cons, List.mem_cons] at h
    push_neg at h
    have hne : ¬ (a = k) := fun hc => h.1 hc.symm
    simp only [mapFind, if_neg hne]
    exact ih h.2

theorem mem_keys_of_mapFind {k : ScoreTypeRef} {m : ScoreMap} {v : Dbl}
    (h : mapFind k m = some v) : k ∈ m.map Prod.fst := by
  induction m with
  | nil => simp [mapFind] at h
  | cons p m ih =>
    obtain ⟨a, b⟩ := p
    simp only [mapFind] at h
    by_cases hak : a = k
    · simp [hak]
    · rw [if_neg hak] at h
      simp only [List.map_cons, List.mem_cons]
      exact Or.inr (ih h)

theorem mapFind_mapInsert_self (k : ScoreTypeRef) (v : Dbl) (m : ScoreMap) :
    mapFind k (mapInsert k v m) = some v := by
  induction m with
  | nil => simp [mapInsert, mapFind]
  | cons p m ih =>
    obtain ⟨a, b⟩ := p
    simp only [mapInsert]
    by_cases hlt : k < a
    · simp [if_pos hlt, mapFind]
    · rw [if_neg hlt]
      by_cases heq : k = a
      · simp [if_pos heq, mapFind]
      · rw [if_neg heq]
        have hne : ¬ (a = k) := fun hc => heq hc.symm
        simp only [mapFind, if_neg hne]
        exact ih

theorem mapFind_mapInsert_ne (k j : ScoreTypeRef) (v : Dbl) (m : ScoreMap)
    (h : k ≠ j) : mapFind k (mapInsert j v m) = mapFind k m := by
  have hne : ¬ (j = k) := fun hc => h hc.symm
  induction m with
  | nil => simp [mapInsert, mapFind, if_neg hne]
  | cons p m ih =>
    obtain ⟨a, b⟩ := p
    simp only [mapInsert]
    by_cases hlt : j < a
    · simp only [if_pos hlt, mapFind, if_neg hne]
    · rw [if_neg hlt]
      by_cases heq : j = a
      · subst heq
        simp only [mapFind, if_neg hne]
      · rw [if_neg heq]
        simp only [mapFind]
        by_cases hak : a = k
        · rw [if_pos hak, if_pos hak]
        · rw [if_neg hak, if_neg hak, ih]

theorem mem_mapInsert {k : ScoreTypeRef} {v : Dbl} {m : ScoreMap}
    {x : ScoreTypeRef × Dbl} (h : x ∈ mapInsert k v m) :
    x = (k, v) ∨ x ∈ m := by
  induction m with
  | nil => simpa [mapInsert] using h
  | cons p m ih =>
    obtain ⟨a, b⟩ := p
    simp only [mapInsert] at h
    by_cases hlt : k < a
    · rw [if_pos hlt] at h
      simpa using h
    · rw [if_neg hlt] at h
      by_cases heq : k = a
      · rw [if_pos heq] at h
        rcases List.mem_cons.mp h with h | h
        · exact Or.inl h
        · exact Or.inr (List.mem_cons_of_mem _ h)
      · rw [if_neg heq] at h
        rcases List.mem_cons.mp h with h | h
        · exact Or.inr (h ▸ List.mem_cons_self _ m)
        · rcases ih h with h | h
          · exact Or.inl h
          · exact Or.inr (List.mem_cons_of_mem _ h)

theorem scoreMapWF_mapInsert {m : ScoreMap} (k : ScoreTypeRef) (v : Dbl)
    (hm : ScoreMapWF m) : ScoreMapWF (mapInsert k v m) := by
  induction m with
  | nil => simp [mapInsert, ScoreMapWF]
  | cons p m ih =>
    obtain ⟨a, b⟩ := p
    rw [ScoreMapWF, List.pairwise_cons] at hm
    obtain ⟨hp, hm⟩ := hm
    simp only [mapInsert]
    by_cases hlt : k < a
    · rw [if_pos hlt, ScoreMapWF, List.pairwise_cons]
      refine ⟨?_, List.Pairwise.cons hp hm⟩
      intro x hx
      rcases List.mem_cons.mp hx with h | h
      · simp [h, hlt]
      · exact lt_trans hlt (hp x h)
    · rw [if_neg hlt]
      by_cases heq : k = a
      · rw [if_pos heq, ScoreMapWF, List.pairwise_cons]
        exact ⟨fun x hx => heq ▸ hp x hx, hm⟩
      · rw [if_neg heq, ScoreMapWF, List.pairwise_cons]
        refine ⟨?_, ih hm⟩
        intro x hx
        rcases mem_mapInsert hx with h | h
        · subst h
          have hak : a < k :=
            Nat.lt_of_le_of_ne (Nat.le_of_not_lt hlt) fun hc => heq hc.symm
          simpa using hak
        · exact hp x h

theorem mapInsert_eq_self {m : ScoreMap} {k : ScoreTypeRef} {v : Dbl}
    (hm : ScoreMapWF m) (h : mapFind k m = some v) : mapInsert k v m = m := by
  induction m with
  | nil => simp [mapFind] at h
  | cons p m ih =>
    obtain ⟨a, b⟩ := p
    rw [ScoreMapWF, List.pairwise_cons] at hm
    obtain ⟨hp, hm⟩ := hm
    simp only [mapFind] at h
    by_cases hak : a = k
    · rw [if_pos hak] at h
      have hv : b = v := by injection h
      subst hak
      subst hv
      simp [mapInsert]
    · rw [if_neg hak] at h
      have hkm : k ∈ m.map Prod.fst := mem_keys_of_mapFind h
      obtain ⟨x, hx, hxk⟩ := List.mem_map.mp hkm
      have hlt : a < k := by
        have hax := hp x hx
        rw [hxk] at hax
        simpa using hax
      have h1 : ¬ (k < a) := Nat.lt_asymm hlt
      have h2 : ¬ (k = a) := fun hc => Nat.lt_irrefl a (hc ▸ hlt)
      simp only [mapInsert, if_neg h1, if_neg h2]
      rw [ih hm h]

theorem keys_nodup_of_scoreMapWF {m : ScoreMap} (hm : ScoreMapWF m) :
    (m.map Prod.fst).Nodup := by
  rw [List.Nodup, List.pairwise_map]
  exact hm.imp (fun h => Nat.ne_of_lt h)

theorem mapFind_of_mem_WF {m : ScoreMap} (hm : ScoreMapWF m)
    {q : ScoreTypeRef × Dbl} (hq : q ∈ m) : mapFind q.1 m = some q.2 := by
  induction m with
  | nil => simp at hq
  | cons p m ih =>
    obtain ⟨a, b⟩ := p
    rw [ScoreMapWF, List.pairwise_cons] at hm
    obtain ⟨hp, hm⟩ := hm
    rcases List.mem_cons.mp hq with h | h
    · subst h
      simp [mapFind]
    · have hlt : a < q.1 := by
        have := hp q h
        simpa using this
      have hne : ¬ (a = q.1) := fun hc => Nat.lt_irrefl a (hc ▸ hlt)
      simp only [mapFind, if_neg hne]
      exact ih hm h

theorem mergeScores_cons (old : ScoreMap) (q : ScoreTypeRef × Dbl)
    (upd : ScoreMap) :
    mergeScores old (q :: upd) = mergeScores (mapInsert q.1 q.2 old) upd := rfl

theorem mapFind_mergeScores (old : ScoreMap) {upd : ScoreMap}
    (hupd : (upd.map Prod.fst).Nodup) (k : ScoreTypeRef) :
    mapFind k (mergeScores old upd) =
      match mapFind k upd with
      | some v => some v
      | none => mapFind k old := by
  induction upd generalizing old with
  | nil => simp [mergeScores, mapFind]
  | cons q upd ih =>
    obtain ⟨a, b⟩ := q
    simp only [List.map_cons, List.nodup_cons] at hupd
    obtain ⟨ha, hupd⟩ := hupd
    rw [mergeScores_cons]
    rw [ih (mapInsert a b old) hupd]
    by_cases hak : a = k
    · subst hak
      have h1 : mapFind a upd = none := mapFind_eq_none_of_not_mem ha
      have h2 : mapFind a ((a, b) :: upd) = some b := by simp [mapFind]
      rw [h1, h2, mapFind_mapInsert_self]
    · have h2 : mapFind k ((a, b) :: upd) = mapFind k upd := by
        simp [mapFind, hak]
      rw [h2, mapFind_mapInsert_ne k a b old (fun hc => hak hc.symm)]

theorem scoreMapWF_mergeScores {old : ScoreMap} (upd : ScoreMap)
    (h : ScoreMapWF old) : ScoreMapWF (mergeScores old upd) := by
  induction upd generalizing old with
  | nil => exact h
  | cons q upd ih =>
    rw [mergeScores_cons]
    exact ih (scoreMapWF_mapInsert q.1 q.2 h)

theorem mergeScores_eq_self {old upd : ScoreMap} (hold : ScoreMapWF old)
    (h : ∀ q ∈ upd, mapFind q.1 old = some q.2) : mergeScores old upd = old := by
  induction upd with
  | nil => rfl
  | cons q upd ih =>
    rw [mergeScores_cons, mapInsert_eq_self hold (h q (List.mem_cons_self q upd))]
    exact ih fun q hq => h q (List.mem_cons_of_mem _ hq)

/-! ### Lemmas about the container operations -/

theorem lookupEntry_eq_none_iff (p : Option ProcessingStepRef)
    (l : AppliedProcessingSteps) : lookupEntry p l = none ↔ p ∉ keysOf l := by
  induction l with
  | nil => simp [lookupEntry, keysOf]
  | cons e rest ih =>
    by_cases he : e.processing_step_opt = p
    · simp [lookupEntry, he, keysOf]
    · have h1 : lookupEntry p (e :: rest) = lookupEntry p rest := by
        simp [lookupEntry, he]
      have h2 : p ∈ keysOf (e :: rest) ↔
          (p = e.processing_step_opt ∨ p ∈ keysOf rest) := by
        simp [keysOf]
      rw [h1, ih]
      constructor
      · intro hn hc
        rcases h2.mp hc with hc | hc
        · exact he hc.symm
        · exact hn hc
      · exact fun hn hc => hn (h2.mpr (Or.inr hc))

theorem lookupEntry_mem {p : Option ProcessingStepRef}
    {l : AppliedProcessingSteps} {e : AppliedProcessingStep}
    (h : lookupEntry p l = some e) : e ∈ l ∧ e.processing_step_opt = p := by
  induction l with
  | nil => simp [lookupEntry] at h
  | cons f rest ih =>
    simp only [lookupEntry] at h
    split at h
    · next hf =>
      obtain rfl : f = e := by injection h
      exact ⟨List.mem_cons_self f rest, hf⟩
    · obtain ⟨h1, h2⟩ := ih h
      exact ⟨List.mem_cons_of_mem f h1, h2⟩

theorem lookupEntry_of_mem_nodup {l : AppliedProcessingSteps}
    {s : AppliedProcessingStep} (hl : (keysOf l).Nodup) (hs : s ∈ l) :
    lookupEntry s.processing_step_opt l = some s := by
  induction l with
  | nil => simp at hs
  | cons e rest ih =>
    simp only [keysOf, List.map_cons, List.nodup_cons] at hl
    obtain ⟨he, hl⟩ := hl
    rcases List.mem_cons.mp hs with h | h
    · subst h
      simp [lookupEntry]
    · have hne : e.processing_step_opt ≠ s.processing_step_opt := by
        intro hc
        exact he (hc ▸ List.mem_map_of_mem (·.processing_step_opt) h)
      simp only [lookupEntry, if_neg hne]
      exact ih hl h

theorem addProcessingStep_of_not_mem {l : AppliedProcessingSteps}
    {step : AppliedProcessingStep} (h : step.processing_step_opt ∉ keysOf l) :
    addProcessingStep l step = l ++ [step] := by
  induction l with
  | nil => rfl
  | cons e rest ih =>
    simp only [keysOf, List.map_cons, List.mem_cons] at h
    push_neg at h
    have hne : ¬ (e.processing_step_opt = step.processing_step_opt) :=
      fun hc => h.1 hc.symm
    simp only [addProcessingStep, if_neg hne]
    rw [ih h.2]
    rfl

theorem keysOf_addProcessingStep (l : AppliedProcessingSteps)
    (step : AppliedProcessingStep) :
    keysOf (addProcessingStep l step) =
      if step.processing_step_opt ∈ keysOf l then keysOf l
      else keysOf l ++ [step.processing_step_opt] := by
  induction l with
  | nil => simp [addProcessingStep, keysOf]
  | cons e rest ih =>
    simp only [addProcessingStep]
    by_cases he : e.processing_step_opt = step.processing_step_opt
    · rw [if_pos he]
      have hmem : step.processing_step_opt ∈ keysOf (e :: rest) := by
        have : step.processing_step_opt = e.processing_step_opt := he.symm
        rw [this]
        exact List.mem_cons_self _ _
      rw [if_pos hmem]
      simp [keysOf]
    · rw [if_neg he]
      have hkeys : keysOf (e :: addProcessingStep rest step) =
          e.processing_step_opt :: keysOf (addProcessingStep rest step) := rfl
      rw [hkeys, ih]
      by_cases hmem : step.processing_step_opt ∈ keysOf rest
      · have hmem2 : step.processing_step_opt ∈ keysOf (e :: rest) :=
          List.mem_cons_of_mem _ hmem
        rw [if_pos hmem, if_pos hmem2]
        rfl
      · have hcons : step.processing_step_opt ∉ keysOf (e :: rest) := by
          intro hc
          rcases List.mem_cons.mp hc with hc | hc
          · exact he hc.symm
          · exact hmem hc
        rw [if_neg hmem, if_neg hcons]
        rfl

theorem lookupEntry_cons_pos {e : AppliedProcessingStep}
    {rest : AppliedProcessingSteps} {p : Option ProcessingStepRef}
    (h : e.processing_step_opt = p) : lookupEntry p (e :: rest) = some e := by
  simp [lookupEntry, h]

theorem lookupEntry_cons_neg {e : AppliedProcessingStep}
    {rest : AppliedProcessingSteps} {p : Option ProcessingStepRef}
    (h : ¬ (e.processing_step_opt = p)) :
    lookupEntry p (e :: rest) = lookupEntry p rest := by
  simp [lookupEntry, h]

theorem lookupEntry_addProcessingStep (l : AppliedProcessingSteps)
    (step : AppliedProcessingStep) (p : Option ProcessingStepRef) :
    lookupEntry p (addProcessingStep l step) =
      if p = step.processing_step_opt then
        match lookupEntry p l with
        | some e => some { e with scores := mergeScores e.scores step.scores }
        | none => some step
      else lookupEntry p l := by
  induction l with
  | nil =>
    have hnil : addProcessingStep [] step = [step] := rfl
    rw [hnil]
    by_cases hp : p = step.processing_step_opt
    · have h1 : step.processing_step_opt = p := hp.symm
      rw [lookupEntry_cons_pos h1, if_pos hp]
      rfl
    · have h1 : ¬ (step.processing_step_opt = p) := fun hc => hp hc.symm
      rw [lookupEntry_cons_neg h1, if_neg hp]
  | cons e rest ih =>
    by_cases he : e.processing_step_opt = step.processing_step_opt
    · have haddcons : addProcessingStep (e :: rest) step =
          { e with scores := mergeScores e.scores step.scores } :: rest := by
        simp only [addProcessingStep, if_pos he]
      rw [haddcons]
      by_cases hp : p = step.processing_step_opt
      · have hep : e.processing_step_opt = p := he.trans hp.symm
        rw [lookupEntry_cons_pos
              (e := { e with scores := mergeScores e.scores step.scores }) hep,
            if_pos hp, lookupEntry_cons_pos hep]
      · have hep : ¬ (e.processing_step_opt = p) := fun hc => hp (hc.symm.trans he)
        rw [lookupEntry_cons_neg
              (e := { e with scores := mergeScores e.scores step.scores }) hep,
            if_neg hp, lookupEntry_cons_neg hep]
    · have haddcons : addProcessingStep (e :: rest) step =
          e :: addProcessingStep rest step := by
        simp only [addProcessingStep, if_neg he]
      rw [haddcons]
      by_cases hep : e.processing_step_opt = p
      · have hp : ¬ (p = step.processing_step_opt) := fun hc => he (hep.trans hc)
        rw [lookupEntry_cons_pos hep, if_neg hp, lookupEntry_cons_pos hep]
      · rw [lookupEntry_cons_neg hep, ih, lookupEntry_cons_neg hep]

theorem nodup_keysOf_addProcessingStep {l : AppliedProcessingSteps}
    (step : AppliedProcessingStep) (h : (keysOf l).Nodup) :
    (keysOf (addProcessingStep l step)).Nodup := by
  rw [keysOf_addProcessingStep]
  by_cases hmem : step.processing_step_opt ∈ keysOf l
  · rw [if_pos hmem]
    exact h
  · rw [if_neg hmem]
    refine List.Nodup.append h (List.nodup_singleton _) ?_
    intro a ha hb
    rw [List.mem_singleton] at hb
    subst hb
    exact hmem ha

theorem merge_nil (A : AppliedProcessingSteps) : merge A [] = A := rfl

theorem merge_cons (A : AppliedProcessingSteps) (b : AppliedProcessingStep)
    (B : AppliedProcessingSteps) :
    merge A (b :: B) = merge (addProcessingStep A b) B := rfl

theorem keysOf_merge_exists (B A : AppliedProcessingSteps) :
    ∃ tail, keysOf (merge A B) = keysOf A ++ tail ∧
      ∀ k ∈ tail, k ∉ keysOf A := by
  induction B generalizing A with
  | nil => exact ⟨[], by simp [merge], by simp⟩
  | cons b B ih =>
    rw [merge_cons]
    obtain ⟨tail, h1, h2⟩ := ih (addProcessingStep A b)
    rw [keysOf_addProcessingStep] at h1 h2
    by_cases hb : b.processing_step_opt ∈ keysOf A
    · rw [if_pos hb] at h1 h2
      exact ⟨tail, h1, h2⟩
    · rw [if_neg hb] at h1 h2
      refine ⟨b.processing_step_opt :: tail, ?_, ?_⟩
      · rw [h1, List.append_assoc]
        rfl
      · intro k hk
        rcases List.mem_cons.mp hk with hk | hk
        · subst hk
          exact hb
        · intro hc
          exact h2 k hk (List.mem_append_left _ hc)

theorem nodup_keysOf_merge {A : AppliedProcessingSteps}
    (B : AppliedProcessingSteps) (h : (keysOf A).Nodup) :
    (keysOf (merge A B)).Nodup := by
  induction B generalizing A with
  | nil => exact h
  | cons b B ih =>
    rw [merge_cons]
    exact ih (nodup_keysOf_addProcessingStep b h)

theorem keysOf_merge {B : AppliedProcessingSteps} (A : AppliedProcessingSteps)
    (hB : (keysOf B).Nodup) :
    keysOf (merge A B) =
      keysOf A ++ (keysOf B).filter (fun k => decide (k ∉ keysOf A)) := by
  induction B generalizing A with
  | nil => simp [merge, keysOf]
  | cons b B ih =>
    have hBcons : keysOf (b :: B) = b.processing_step_opt :: keysOf B := rfl
    rw [hBcons, List.nodup_cons] at hB
    obtain ⟨hbB, hB⟩ := hB
    rw [merge_cons, ih (addProcessingStep A b) hB, keysOf_addProcessingStep,
      hBcons]
    by_cases hb : b.processing_step_opt ∈ keysOf A
    · rw [if_pos hb]
      have hfilter : (b.processing_step_opt :: keysOf B).filter
          (fun k => decide (k ∉ keysOf A)) =
          (keysOf B).filter (fun k => decide (k ∉ keysOf A)) := by
        simp [List.filter_cons, hb]
      rw [hfilter]
    · rw [if_neg hb]
      have hcongr : (keysOf B).filter
          (fun k => decide (k ∉ keysOf A ++ [b.processing_step_opt])) =
          (keysOf B).filter (fun k => decide (k ∉ keysOf A)) := by
        apply List.filter_congr
        intro k hk
        have hkb : k ≠ b.processing_step_opt := fun hc => hbB (hc ▸ hk)
        by_cases hkA : k ∈ keysOf A
        · simp [hkA]
        · have h1 : k ∉ keysOf A ++ [b.processing_step_opt] := by
            intro hc
            rcases List.mem_append.mp hc with hc | hc
            · exact hkA hc
            · exact hkb (List.mem_singleton.mp hc)
          simp [h1, hkA]
      have hfilter : (b.processing_step_opt :: keysOf B).filter
          (fun k => decide (k ∉ keysOf A)) =
          b.processing_step_opt ::
            (keysOf B).filter (fun k => decide (k ∉ keysOf A)) := by
        simp [List.filter_cons, hb]
      rw [hcongr, hfilter, List.append_assoc]
      rfl

theorem lookupEntry_merge {B : AppliedProcessingSteps}
    (A : AppliedProcessingSteps) (hB : (keysOf B).Nodup)
    (p : Option ProcessingStepRef) :
    lookupEntry p (merge A B) =
      match lookupEntry p A, lookupEntry p B with
      | some ea, some eb =>
          some { ea with scores := mergeScores ea.scores eb.scores }
      | some ea, none => some ea
      | none, some eb => some eb
      | none, none => none := by
  induction B generalizing A with
  | nil =>
    rw [merge_nil]
    cases hA : lookupEntry p A <;> rfl
  | cons b B ih =>
    have hBcons : keysOf (b :: B) = b.processing_step_opt :: keysOf B := rfl
    rw [hBcons, List.nodup_cons] at hB
    obtain ⟨hbB, hB⟩ := hB
    rw [merge_cons, ih (addProcessingStep A b) hB,
      lookupEntry_addProcessingStep]
    by_cases hp : p = b.processing_step_opt
    · have hlB : lookupEntry p (b :: B) = some b := lookupEntry_cons_pos hp.symm
      have hpB : lookupEntry p B = none :=
        (lookupEntry_eq_none_iff p B).mpr (hp ▸ hbB)
      rw [if_pos hp, hlB, hpB]
      cases hA : lookupEntry p A <;> rfl
    · have hlB : lookupEntry p (b :: B) = lookupEntry p B :=
        lookupEntry_cons_neg (fun hc => hp hc.symm)
      rw [if_neg hp, hlB]

theorem getScoreAndStepRev_eq_notfound {T : ScoreTypeRef}
    {m : AppliedProcessingSteps} (h : ∀ e ∈ m, mapFind T e.scores = none) :
    getScoreAndStepRev T m = (Dbl.nan, none, false) := by
  induction m with
  | nil => rfl
  | cons e rest ih =>
    have he := h e (List.mem_cons_self e rest)
    have hunfold : getScoreAndStepRev T (e :: rest) =
        match mapFind T e.scores with
        | some v => (v, e.processing_step_opt, true)
        | none => getScoreAndStepRev T rest := rfl
    rw [hunfold, he]
    exact ih fun x hx => h x (List.mem_cons_of_mem e hx)

theorem getScoreAndStep_notfound {T : ScoreTypeRef} {l : AppliedProcessingSteps}
    (h : ∀ e ∈ l, mapFind T e.scores = none) :
    getScoreAndStep l T = (Dbl.nan, none, false) := by
  apply getScoreAndStepRev_eq_notfound
  intro e he
  exact h e (List.mem_reverse.mp he)

theorem getScoreAndStep_append (l : AppliedProcessingSteps)
    (e : AppliedProcessingStep) (T : ScoreTypeRef) :
    getScoreAndStep (l ++ [e]) T =
      match mapFind T e.scores with
      | some v => (v, e.processing_step_opt, true)
      | none => getScoreAndStep l T := by
  unfold getScoreAndStep
  rw [List.reverse_append]
  rfl

theorem addProcessingStep_eq_self {l : AppliedProcessingSteps}
    {step e : AppliedProcessingStep}
    (hl : lookupEntry step.processing_step_opt l = some e)
    (he : ScoreMapWF e.scores)
    (hs : ∀ q ∈ step.scores, mapFind q.1 e.scores = some q.2) :
    addProcessingStep l step = l := by
  induction l with
  | nil => simp [lookupEntry] at hl
  | cons f rest ih =>
    by_cases hf : f.processing_step_opt = step.processing_step_opt
    · rw [lookupEntry_cons_pos hf] at hl
      obtain rfl : f = e := by injection hl
      have haddcons : addProcessingStep (f :: rest) step =
          { f with scores := mergeScores f.scores step.scores } :: rest := by
        simp only [addProcessingStep, if_pos hf]
      rw [haddcons, mergeScores_eq_self he hs]
    · rw [lookupEntry_cons_neg hf] at hl
      have haddcons : addProcessingStep (f :: rest) step =
          f :: addProcessingStep rest step := by
        simp only [addProcessingStep, if_neg hf]
      rw [haddcons, ih hl]

theorem merge_eq_self_of_fixed {A B : AppliedProcessingSteps}
    (h : ∀ s ∈ B, addProcessingStep A s = A) : merge A B = A := by
  induction B with
  | nil => rfl
  | cons b B ih =>
    rw [merge_cons, h b (List.mem_cons_self b B)]
    exact ih fun s hs => h s (List.mem_cons_of_mem b hs)

theorem addProcessingStep_set {step : AppliedProcessingStep} :
    ∀ {l : AppliedProcessingSteps}, (keysOf l).Nodup →
    ∀ i (hi : i < l.length),
      (l.get ⟨i, hi⟩).processing_step_opt = step.processing_step_opt →
      addProcessingStep l step =
        l.set i { l.get ⟨i, hi⟩ with
          scores := mergeScores (l.get ⟨i, hi⟩).scores step.scores } := by
  intro l
  induction l with
  | nil =>
    intro _ i hi
    simp at hi
  | cons e rest ih =>
    intro hnd i hi hkey
    have hndc : (keysOf (e :: rest)).Nodup := hnd
    rw [show keysOf (e :: rest) = e.processing_step_opt :: keysOf rest from rfl,
      List.nodup_cons] at hndc
    obtain ⟨hhead, htail⟩ := hndc
    cases i with
    | zero =>
      have hkey0 : e.processing_step_opt = step.processing_step_opt := hkey
      simp only [addProcessingStep, if_pos hkey0]
      rfl
    | succ j =>
      have hj : j < rest.length := Nat.lt_of_succ_lt_succ hi
      have hkeyj : (rest.get ⟨j, hj⟩).processing_step_opt =
          step.processing_step_opt := hkey
      have hmem : step.processing_step_opt ∈ keysOf rest := by
        rw [← hkeyj]
        exact List.mem_map_of_mem _ (rest.get_mem j hj)
      have hne : ¬ (e.processing_step_opt = step.processing_step_opt) :=
        fun hc => hhead (hc ▸ hmem)
      simp only [addProcessingStep, if_neg hne]
      have := ih htail j hj hkeyj
      rw [this]
      rfl

theorem getScoreForStep_addScore (l : AppliedProcessingSteps) (T : ScoreTypeRef)
    (v : Dbl) (p : Option ProcessingStepRef) :
    getScoreForStep (addScore l T v p) T p = (v, true) := by
  have h1 := lookupEntry_addProcessingStep l ⟨p, mapInsert T v []⟩ p
  rw [if_pos rfl] at h1
  show getScoreForStep (addProcessingStep l ⟨p, mapInsert T v []⟩) T p = (v, true)
  cases hA : lookupEntry p l with
  | none =>
    rw [hA] at h1
    have h1e : lookupEntry p (addProcessingStep l ⟨p, mapInsert T v []⟩) =
        some ⟨p, mapInsert T v []⟩ := h1
    have hfind : mapFind T (mapInsert T v ([] : ScoreMap)) = some v :=
      mapFind_mapInsert_self T v []
    simp only [getScoreForStep, h1e, hfind]
  | some e =>
    rw [hA] at h1
    have h1e : lookupEntry p (addProcessingStep l ⟨p, mapInsert T v []⟩) =
        some { e with scores := mergeScores e.scores (mapInsert T v []) } := h1
    have hfind : mapFind T (mergeScores e.scores (mapInsert T v [])) = some v :=
      mapFind_mapInsert_self T v e.scores
    simp only [getScoreForStep, h1e, hfind]

theorem nodup_keysOf_reachable {l : AppliedProcessingSteps} (h : Reachable l) :
    (keysOf l).Nodup := by
  induction h with
  | empty => simp [keysOf]
  | addStep l step _ ih => exact nodup_keysOf_addProcessingStep step ih
  | score l t v p _ ih => exact nodup_keysOf_addProcessingStep _ ih
  | plusEq l other _ ih => exact nodup_keysOf_merge other ih

/-! ### The claims -/

/-- C1: in every ledger state reachable from the empty ledger by any sequence
of `addProcessingStep`, `addScore` and `operator+=` (merge) calls, no two
entries of `steps_and_scores` have the same `processing_step_opt` value
(including at most one entry whose `processing_step_opt` is absent). -/
theorem C1_uniqueness (l : AppliedProcessingSteps) (h : Reachable l) :
    l.Pairwise (fun a b => a.processing_step_opt ≠ b.processing_step_opt) := by
  have hn : (keysOf l).Nodup := nodup_keysOf_reachable h
  rw [keysOf, List.Nodup, List.pairwise_map] at hn
  exact hn

/-- Witness for C1 at a concrete reachable state. -/
theorem C1_uniqueness_witness :
    Reachable (addScore (addScore [] 0 (Dbl.fin 5) none) 1 (Dbl.fin 2) (some 3))
    ∧ (addScore (addScore [] 0 (Dbl.fin 5) none) 1 (Dbl.fin 2)
        (some 3)).Pairwise
        (fun a b => a.processing_step_opt ≠ b.processing_step_opt) :=
  ⟨Reachable.score _ _ _ _ (Reachable.score _ _ _ _ Reachable.empty),
   C1_uniqueness _
     (Reachable.score _ _ _ _ (Reachable.score _ _ _ _ Reachable.empty))⟩

/-- C2: `addProcessingStep(step)` appends `step` at the end when no entry has
its `processing_step_opt`; otherwise it rewrites the existing entry in place
(same position), writing every `(scoreType, value)` pair of `step.scores`
into that entry's map and keeping all other keys of the entry unchanged. -/
theorem C2_addProcessingStep (l : AppliedProcessingSteps)
    (step : AppliedProcessingStep) :
    (step.processing_step_opt ∉ keysOf l →
      addProcessingStep l step = l ++ [step])
    ∧ ((keysOf l).Nodup → ScoreMapWF step.scores →
        ∀ i (hi : i < l.length),
          (l.get ⟨i, hi⟩).processing_step_opt = step.processing_step_opt →
          addProcessingStep l step =
            l.set i { l.get ⟨i, hi⟩ with
              scores := mergeScores (l.get ⟨i, hi⟩).scores step.scores }
          ∧ (∀ k v, mapFind k step.scores = some v →
              mapFind k (mergeScores (l.get ⟨i, hi⟩).scores step.scores) =
                some v)
          ∧ (∀ k, mapFind k step.scores = none →
              mapFind k (mergeScores (l.get ⟨i, hi⟩).scores step.scores) =
                mapFind k (l.get ⟨i, hi⟩).scores)) := by
  constructor
  · exact fun h => addProcessingStep_of_not_mem h
  · intro hnd hwf i hi hkey
    refine ⟨addProcessingStep_set hnd i hi hkey, ?_, ?_⟩
    · intro k v hk
      rw [mapFind_mergeScores _ (keys_nodup_of_scoreMapWF hwf) k, hk]
    · intro k hk
      rw [mapFind_mergeScores _ (keys_nodup_of_scoreMapWF hwf) k, hk]

/-- Witness for C2: a fresh step is appended; an existing step is updated in
place with overwritten scores. -/
theorem C2_addProcessingStep_witness :
    addProcessingStep [⟨some 1, [(0, Dbl.fin 1)]⟩] ⟨some 2, []⟩ =
      [⟨some 1, [(0, Dbl.fin 1)]⟩] ++ [⟨some 2, []⟩]
    ∧ addProcessingStep [⟨some 1, [(0, Dbl.fin 1)]⟩]
        ⟨some 1, [(0, Dbl.fin 9)]⟩ = [⟨some 1, [(0, Dbl.fin 9)]⟩] :=
  ⟨(C2_addProcessingStep _ _).1 (by decide),
   (((C2_addProcessingStep [⟨some 1, [(0, Dbl.fin 1)]⟩]
        ⟨some 1, [(0, Dbl.fin 9)]⟩).2 (by decide) (by decide) 0 (by decide)
        (by decide)).1).trans (by decide)⟩

/-- C3: `getScoreAndStep` scans in reverse sequence order (last-appended entry
first), returning the first entry containing the score type; with entries S1
(appended first, T = 1.0) and S2 (appended second, T = 2.0), `getScore` gives
(2.0, true) and `getScoreAndStep` gives (2.0, S2, true); with no entry
containing T it gives (NaN, absent, false). -/
theorem C3_getScoreAndStep_reverse (l : AppliedProcessingSteps)
    (T : ScoreTypeRef) (s1 s2 : ProcessingStepRef) :
    (∀ e v, mapFind T e.scores = some v →
        getScoreAndStep (l ++ [e]) T = (v, e.processing_step_opt, true))
    ∧ (∀ e, mapFind T e.scores = none →
        getScoreAndStep (l ++ [e]) T = getScoreAndStep l T)
    ∧ ((∀ e ∈ l, mapFind T e.scores = none) →
        getScoreAndStep l T = (Dbl.nan, none, false))
    ∧ (s1 ≠ s2 →
        getScore
          (addProcessingStep
            (addProcessingStep [] ⟨some s1, [(T, Dbl.fin 1)]⟩)
            ⟨some s2, [(T, Dbl.fin 2)]⟩) T = (Dbl.fin 2, true)
        ∧ getScoreAndStep
            (addProcessingStep
              (addProcessingStep [] ⟨some s1, [(T, Dbl.fin 1)]⟩)
              ⟨some s2, [(T, Dbl.fin 2)]⟩) T = (Dbl.fin 2, some s2, true)) := by
  refine ⟨?_, ?_, ?_, ?_⟩
  · intro e v hv
    rw [getScoreAndStep_append, hv]
  · intro e hv
    rw [getScoreAndStep_append, hv]
  · exact getScoreAndStep_notfound
  · intro hns
    have hmem : (⟨some s2, [(T, Dbl.fin 2)]⟩ :
        AppliedProcessingStep).processing_step_opt ∉
        keysOf [⟨some s1, [(T, Dbl.fin 1)]⟩] := by
      intro hc
      rw [show keysOf [⟨some s1, [(T, Dbl.fin 1)]⟩] = [some s1] from rfl] at hc
      exact hns (Option.some.inj (List.mem_singleton.mp hc)).symm
    have hL : addProcessingStep
        (addProcessingStep [] ⟨some s1, [(T, Dbl.fin 1)]⟩)
        ⟨some s2, [(T, Dbl.fin 2)]⟩ =
        [⟨some s1, [(T, Dbl.fin 1)]⟩, ⟨some s2, [(T, Dbl.fin 2)]⟩] := by
      rw [show addProcessingStep [] ⟨some s1, [(T, Dbl.fin 1)]⟩ =
          [⟨some s1, [(T, Dbl.fin 1)]⟩] from rfl,
        addProcessingStep_of_not_mem hmem]
      rfl
    rw [hL]
    constructor
    · simp [getScore, getScoreAndStep, getScoreAndStepRev, mapFind]
    · simp [getScoreAndStep, getScoreAndStepRev, mapFind]

/-- Witness for C3 at concrete inputs. -/
theorem C3_getScoreAndStep_reverse_witness :
    getScoreAndStep [] 0 = (Dbl.nan, none, false)
    ∧ getScore
        (addProcessingStep (addProcessingStep [] ⟨some 1, [(0, Dbl.fin 1)]⟩)
          ⟨some 2, [(0, Dbl.fin 2)]⟩) 0 = (Dbl.fin 2, true)
    ∧ getScoreAndStep
        (addProcessingStep (addProcessingStep [] ⟨some 1, [(0, Dbl.fin 1)]⟩)
          ⟨some 2, [(0, Dbl.fin 2)]⟩) 0 = (Dbl.fin 2, some 2, true) :=
  ⟨(C3_getScoreAndStep_reverse [] 0 1 2).2.2.1
      (fun e he => absurd he (List.not_mem_nil e)),
   ((C3_getScoreAndStep_reverse [] 0 1 2).2.2.2 (by decide)).1,
   ((C3_getScoreAndStep_reverse [] 0 1 2).2.2.2 (by decide)).2⟩

/-- C4: `operator+=` equals folding `addProcessingStep` over the other
ledger's entries in sequence order: keys only in B are appended in B's
relative order, keys in both get their score maps unioned with B winning
on collisions, and A's pre-existing order is preserved; concretely, merging
A = [(S1, T=1.0)] with B = [(S1, T=9.0), (S2, T=3.0)] yields S1 with T=9.0
before S2 with T=3.0. -/
theorem C4_merge (A B : AppliedProcessingSteps)
    (hB : (keysOf B).Nodup) (hBwf : ∀ e ∈ B, ScoreMapWF e.scores) :
    merge A B = B.foldl addProcessingStep A
    ∧ keysOf (merge A B) =
        keysOf A ++ (keysOf B).filter (fun k => decide (k ∉ keysOf A))
    ∧ (∀ p, lookupEntry p (merge A B) =
        match lookupEntry p A, lookupEntry p B with
        | some ea, some eb =>
            some { ea with scores := mergeScores ea.scores eb.scores }
        | some ea, none => some ea
        | none, some eb => some eb
        | none, none => none)
    ∧ (∀ p ea eb k, lookupEntry p A = some ea → lookupEntry p B = some eb →
        mapFind k (mergeScores ea.scores eb.scores) =
          match mapFind k eb.scores with
          | some v => some v
          | none => mapFind k ea.scores)
    ∧ (∀ s1 s2 T, s1 ≠ s2 →
        merge [⟨some s1, [(T, Dbl.fin 1)]⟩]
          [⟨some s1, [(T, Dbl.fin 9)]⟩, ⟨some s2, [(T, Dbl.fin 3)]⟩] =
          [⟨some s1, [(T, Dbl.fin 9)]⟩, ⟨some s2, [(T, Dbl.fin 3)]⟩]) := by
  refine ⟨rfl, keysOf_merge A hB, fun p => lookupEntry_merge A hB p, ?_, ?_⟩
  · intro p ea eb k hA hBe
    exact mapFind_mergeScores ea.scores
      (keys_nodup_of_scoreMapWF (hBwf eb (lookupEntry_mem hBe).1)) k
  · intro s1 s2 T hns
    have h1 : addProcessingStep [⟨some s1, [(T, Dbl.fin 1)]⟩]
        ⟨some s1, [(T, Dbl.fin 9)]⟩ = [⟨some s1, [(T, Dbl.fin 9)]⟩] := by
      simp [addProcessingStep, mergeScores, mapInsert]
    have hne : ¬ ((some s1 : Option ProcessingStepRef) = some s2) :=
      fun hc => hns (Option.some.inj hc)
    have h2 : addProcessingStep [⟨some s1, [(T, Dbl.fin 9)]⟩]
        ⟨some s2, [(T, Dbl.fin 3)]⟩ =
        [⟨some s1, [(T, Dbl.fin 9)]⟩, ⟨some s2, [(T, Dbl.fin 3)]⟩] := by
      simp [addProcessingStep, hne]
    rw [merge_cons, h1, merge_cons, h2, merge_nil]

/-- Witness for C4 at concrete ledgers. -/
theorem C4_merge_witness :
    merge [⟨some 1, [(0, Dbl.fin 1)]⟩]
      [⟨some 1, [(0, Dbl.fin 9)]⟩, ⟨some 2, [(0, Dbl.fin 3)]⟩] =
      [⟨some 1, [(0, Dbl.fin 9)]⟩, ⟨some 2, [(0, Dbl.fin 3)]⟩] :=
  (C4_merge [⟨some 1, [(0, Dbl.fin 1)]⟩]
    [⟨some 1, [(0, Dbl.fin 9)]⟩, ⟨some 2, [(0, Dbl.fin 3)]⟩]
    (by decide) (by decide)).2.2.2.2 1 2 0 (by decide)

/-- C5: the two-argument `getScore` looks the entry for the step reference
option up directly and returns (value, true) iff that entry exists and holds
the score type, else (NaN, false); after `addScore(T, 5.0)` with no step,
lookup with the absent step gives (5.0, true) and lookup with any other step
gives (NaN, false). -/
theorem C5_getScore_by_step (l : AppliedProcessingSteps) (T : ScoreTypeRef)
    (p : Option ProcessingStepRef) :
    (lookupEntry p l = none → getScoreForStep l T p = (Dbl.nan, false))
    ∧ (∀ e, lookupEntry p l = some e → mapFind T e.scores = none →
        getScoreForStep l T p = (Dbl.nan, false))
    ∧ (∀ e v, lookupEntry p l = some e → mapFind T e.scores = some v →
        getScoreForStep l T p = (v, true))
    ∧ getScoreForStep (addScore [] T (Dbl.fin 5) none) T none =
        (Dbl.fin 5, true)
    ∧ (∀ s, getScoreForStep (addScore [] T (Dbl.fin 5) none) T (some s) =
        (Dbl.nan, false)) := by
  refine ⟨?_, ?_, ?_, ?_, ?_⟩
  · intro h
    simp [getScoreForStep, h]
  · intro e he hm
    simp [getScoreForStep, he, hm]
  · intro e v he hm
    simp [getScoreForStep, he, hm]
  · exact getScoreForStep_addScore [] T (Dbl.fin 5) none
  · intro s
    have hl : lookupEntry (some s) (addScore [] T (Dbl.fin 5) none) = none := rfl
    simp [getScoreForStep, hl]

/-- Witness for C5 at concrete inputs. -/
theorem C5_getScore_by_step_witness :
    getScoreForStep [] 0 (some 7) = (Dbl.nan, false)
    ∧ getScoreForStep (addScore [] 0 (Dbl.fin 5) none) 0 none =
        (Dbl.fin 5, true) :=
  ⟨(C5_getScore_by_step [] 0 (some 7)).1 (by decide),
   (C5_getScore_by_step [] 0 (some 7)).2.2.2.1⟩

theorem keysOf_addProcessingStep_exists (l : AppliedProcessingSteps)
    (step : AppliedProcessingStep) :
    ∃ tail, keysOf (addProcessingStep l step) = keysOf l ++ tail
      ∧ ∀ k ∈ tail, k ∉ keysOf l := by
  rw [keysOf_addProcessingStep]
  by_cases h : step.processing_step_opt ∈ keysOf l
  · exact ⟨[], by rw [if_pos h, List.append_nil], by simp⟩
  · refine ⟨[step.processing_step_opt], by rw [if_neg h], ?_⟩
    intro k hk
    rw [List.mem_singleton] at hk
    subst hk
    exact h

/-- C6: each single `addProcessingStep`, `addScore` or merge call keeps the
relative sequence order of pre-existing entries (each keeps its position; it
is updated in place, never moved) and appends any new entries at the end. -/
theorem C6_order_stability (l A B : AppliedProcessingSteps)
    (step : AppliedProcessingStep) (t : ScoreTypeRef) (v : Dbl)
    (p : Option ProcessingStepRef) :
    (∃ tail, keysOf (addProcessingStep l step) = keysOf l ++ tail
      ∧ ∀ k ∈ tail, k ∉ keysOf l)
    ∧ (∃ tail, keysOf (addScore l t v p) = keysOf l ++ tail
      ∧ ∀ k ∈ tail, k ∉ keysOf l)
    ∧ (∃ tail, keysOf (merge A B) = keysOf A ++ tail
      ∧ ∀ k ∈ tail, k ∉ keysOf A) :=
  ⟨keysOf_addProcessingStep_exists l step,
   keysOf_addProcessingStep_exists l _,
   keysOf_merge_exists B A⟩

/-- C7: a second `addScore` for the same (score type, step) pair overwrites
the first value: `getScore(T, S)` then returns (v2, true). -/
theorem C7_score_overwrite (l : AppliedProcessingSteps) (T : ScoreTypeRef)
    (v1 v2 : Dbl) (p : Option ProcessingStepRef) :
    getScoreForStep (addScore (addScore l T v1 p) T v2 p) T p = (v2, true) :=
  getScoreForStep_addScore (addScore l T v1 p) T v2 p

/-- C8: every lookup is a total function; on a miss it returns found = false
with the NaN sentinel (and the absent step option for `getScoreAndStep`);
on the empty ledger every lookup misses. -/
theorem C8_total_miss (l : AppliedProcessingSteps) (T : ScoreTypeRef)
    (p : Option ProcessingStepRef) :
    ((∀ e ∈ l, mapFind T e.scores = none) →
        getScore l T = (Dbl.nan, false)
        ∧ (getScore l T).1.isNaN = true
        ∧ getScoreAndStep l T = (Dbl.nan, none, false))
    ∧ (lookupEntry p l = none →
        getScoreForStep l T p = (Dbl.nan, false)
        ∧ (getScoreForStep l T p).1.isNaN = true)
    ∧ (∀ e, lookupEntry p l = some e → mapFind T e.scores = none →
        getScoreForStep l T p = (Dbl.nan, false))
    ∧ getScore [] T = (Dbl.nan, false)
    ∧ getScoreAndStep [] T = (Dbl.nan, none, false)
    ∧ getScoreForStep [] T p = (Dbl.nan, false) := by
  refine ⟨?_, ?_, ?_, rfl, rfl, rfl⟩
  · intro h
    have hs := getScoreAndStep_notfound h
    exact ⟨by simp [getScore, hs], by simp [getScore, hs, Dbl.isNaN], hs⟩
  · intro h
    exact ⟨by simp [getScoreForStep, h], by simp [getScoreForStep, h, Dbl.isNaN]⟩
  · intro e he hm
    simp [getScoreForStep, he, hm]

/-- Witness for C8 at a concrete non-empty ledger and missing keys. -/
theorem C8_total_miss_witness :
    getScore [⟨some 1, [(5, Dbl.fin 2)]⟩] 0 = (Dbl.nan, false)
    ∧ getScoreForStep [⟨some 1, [(5, Dbl.fin 2)]⟩] 0 (some 9) =
        (Dbl.nan, false) :=
  ⟨((C8_total_miss [⟨some 1, [(5, Dbl.fin 2)]⟩] 0 (some 9)).1 (by decide)).1,
   ((C8_total_miss [⟨some 1, [(5, Dbl.fin 2)]⟩] 0 (some 9)).2.1
      (by decide)).1⟩

/-- C9: the one-argument `getScore` is the projection of `getScoreAndStep`
that drops the step reference component. -/
theorem C9_getScore_projection (l : AppliedProcessingSteps)
    (T : ScoreTypeRef) :
    getScore l T = ((getScoreAndStep l T).1, (getScoreAndStep l T).2.2) := rfl

/-- C10: `addProcessingStep` with a step whose key already has an entry and
whose score pairs are all already present with the same values leaves the
ledger unchanged; hence merging a valid ledger with an equal ledger is a
no-op on `steps_and_scores`. -/
theorem C10_merge_idempotent (l A : AppliedProcessingSteps)
    (step : AppliedProcessingStep) :
    (∀ e, lookupEntry step.processing_step_opt l = some e →
      ScoreMapWF e.scores →
      (∀ q ∈ step.scores, mapFind q.1 e.scores = some q.2) →
      addProcessingStep l step = l)
    ∧ (LedgerWF A → merge A A = A) := by
  constructor
  · intro e he hwf hq
    exact addProcessingStep_eq_self he hwf hq
  · intro hA
    obtain ⟨hnd, hwf⟩ := hA
    apply merge_eq_self_of_fixed
    intro s hs
    apply addProcessingStep_eq_self (lookupEntry_of_mem_nodup hnd hs) (hwf s hs)
    intro q hq
    exact mapFind_of_mem_WF (hwf s hs) hq

/-- Witness for C10 at concrete ledgers. -/
theorem C10_merge_idempotent_witness :
    addProcessingStep [⟨some 1, [(0, Dbl.fin 1)]⟩] ⟨some 1, [(0, Dbl.fin 1)]⟩
      = [⟨some 1, [(0, Dbl.fin 1)]⟩]
    ∧ merge [⟨some 1, [(0, Dbl.fin 1)]⟩, ⟨none, [(2, Dbl.fin 3)]⟩]
        [⟨some 1, [(0, Dbl.fin 1)]⟩, ⟨none, [(2, Dbl.fin 3)]⟩] =
        [⟨some 1, [(0, Dbl.fin 1)]⟩, ⟨none, [(2, Dbl.fin 3)]⟩] :=
  ⟨(C10_merge_idempotent [⟨some 1, [(0, Dbl.fin 1)]⟩]
      [] ⟨some 1, [(0, Dbl.fin 1)]⟩).1 ⟨some 1, [(0, Dbl.fin 1)]⟩
      (by decide) (by decide) (by decide),
   (C10_merge_idempotent []
      [⟨some 1, [(0, Dbl.fin 1)]⟩, ⟨none, [(2, Dbl.fin 3)]⟩]
      ⟨none, []⟩).2 (by decide)⟩
